import Mathlib

/-!
Shallow embedding of the quizzit trivia bot (`src/main.py`): the
`AnswerMatcher` text-normalisation / flexible-matching engine and the
`TriviaBot` round coordinator (comment monitoring, first-correct-wins
resolution, time-tiered scoring, user statistics, and the
top-matching-answers report).

Modelling conventions:
* Python strings are Lean `String`s / `List Char`.  The embedding covers the
  ASCII fragment (plus the basic HTML entities): `unicodedata.normalize('NFKD', t)`
  and combining-mark removal are the identity there, and `str.lower`,
  `str.strip`, regex `\w` and `\s` are modelled by their ASCII semantics.
* Python floats are modelled as exact rationals `ℚ`; fractional constants and
  int/int divisions are written with `mkRat` (the same rational values,
  kept kernel-computable).
* `difflib.SequenceMatcher(None, a, b).ratio()` is Python standard-library
  code, external to this repository; it is modelled as an explicit function
  parameter `sim` threaded through the definitions that call it (none of the
  properties verified here depend on its values).
* I/O (Reddit, Supabase, logging, and the random engagement replies, which
  never change bot state) is dropped; the winning celebration reply is
  modelled by the `winner` field of `BotState`, and the wall clock is an
  explicit input (each comment carries its `response_time`, the value
  `(datetime.now() - question_start_time).total_seconds()` computed when the
  comment is processed).
-/

namespace Quizzit

/-- Python whitespace (`str.split()`, `str.strip()`, regex `\s`), ASCII fragment. -/
def pyIsSpace (c : Char) : Bool :=
  c == ' ' || c == '\t' || c == '\n' || c == '\r' || c == '\x0b' || c == '\x0c'

/-- ASCII case table backing `str.lower()`. -/
def lowerTable : List (Char × Char) :=
  [('A', 'a'), ('B', 'b'), ('C', 'c'), ('D', 'd'), ('E', 'e'), ('F', 'f'),
   ('G', 'g'), ('H', 'h'), ('I', 'i'), ('J', 'j'), ('K', 'k'), ('L', 'l'),
   ('M', 'm'), ('N', 'n'), ('O', 'o'), ('P', 'p'), ('Q', 'q'), ('R', 'r'),
   ('S', 's'), ('T', 't'), ('U', 'u'), ('V', 'v'), ('W', 'w'), ('X', 'x'),
   ('Y', 'y'), ('Z', 'z')]

/-- `str.lower()` on one character (ASCII fragment). -/
def pyLowerChar (c : Char) : Char :=
  match lowerTable.find? (fun p => p.1 == c) with
  | some p => p.2
  | none => c

/-- `str.lower()`. -/
def pyLowerL (s : List Char) : List Char := s.map pyLowerChar

/-- `str.lstrip()`. -/
def lstripL (s : List Char) : List Char := s.dropWhile pyIsSpace

/-- `str.strip()` (whitespace from both ends). -/
def pyStripL (s : List Char) : List Char :=
  ((lstripL s).reverse.dropWhile pyIsSpace).reverse

/-- Entity table for `html.unescape`, modelled for the basic XML entities.
The Python function additionally knows the full HTML5 entity table, numeric
character references and semicolon-less forms, none of which occur in any
input analysed here; like the Python function, the model is the identity on
`&`-free text. -/
def entities : List (List Char × List Char) :=
  [("amp;".data, "&".data), ("lt;".data, "<".data), ("gt;".data, ">".data),
   ("quot;".data, "\"".data), ("apos;".data, "'".data)]

/-- Try each entity name as a prefix of the text after a `&`. -/
def tryEntity : List (List Char × List Char) → List Char → Option (List Char × List Char)
  | [], _ => none
  | (name, repl) :: es, s =>
    if name.isPrefixOf s then some (repl, s.drop name.length) else tryEntity es s

/-- Fuel-indexed scanner for `html.unescape` (fuel only totalises the
recursion; it is always called with enough fuel). -/
def unescapeGo : ℕ → List Char → List Char
  | 0, s => s
  | _ + 1, [] => []
  | fuel + 1, c :: rest =>
    if c == '&' then
      match tryEntity entities rest with
      | some (repl, rest') => repl ++ unescapeGo fuel rest'
      | none => '&' :: unescapeGo fuel rest
    else c :: unescapeGo fuel rest

/-- `html.unescape`. -/
def unescapeL (s : List Char) : List Char := unescapeGo s.length s

/-- `unicodedata.normalize('NFKD', text)` followed by dropping combining
marks — the identity on the modelled ASCII fragment. -/
def nfkdStripAccents (s : List Char) : List Char := s

/-- The `replacements` table of `AnswerMatcher.normalize_text`, in source
(dict insertion) order. -/
def replacements : List (Char × List Char) :=
  [('&', "and".data), ('+', "plus".data), ('%', "percent".data),
   ('$', "dollar".data), ('€', "euro".data), ('£', "pound".data),
   ('¥', "yen".data), ('@', "at".data), ('#', "number".data),
   ('°', "degree".data), ('½', "0.5".data), ('¼', "0.25".data),
   ('¾', "0.75".data), ('²', "2".data), ('³', "3".data)]

/-- `text.replace(sym, repl)` for a single-character pattern. -/
def replaceAllL (pat : Char) (repl : List Char) : List Char → List Char
  | [] => []
  | c :: rest =>
    if c == pat then repl ++ replaceAllL pat repl rest else c :: replaceAllL pat repl rest

/-- The `for symbol, replacement in replacements.items(): text = text.replace(...)` loop. -/
def applyReplacements (s : List Char) : List Char :=
  replacements.foldl (fun t p => replaceAllL p.1 p.2 t) s

/-- Regex `\w` (ASCII fragment): letters, digits, underscore. -/
def isWordChar (c : Char) : Bool := c.isAlphanum || c == '_'

/-- The characters kept by `re.sub(r'[^\w\s\.\-\']', ' ', text)`. -/
def keepChar (c : Char) : Bool :=
  isWordChar c || pyIsSpace c || c == '.' || c == '-' || c == '\''

/-- `re.sub(r'[^\w\s\.\-\']', ' ', text)`. -/
def punctToSpace (s : List Char) : List Char :=
  s.map (fun c => if keepChar c then c else ' ')

/-- Worker for `str.split()` (`cur` is the current word, reversed). -/
def pySplitGo (cur : List Char) : List Char → List (List Char)
  | [] => if cur.isEmpty then [] else [cur.reverse]
  | c :: rest =>
    if pyIsSpace c then
      if cur.isEmpty then pySplitGo [] rest else cur.reverse :: pySplitGo [] rest
    else pySplitGo (c :: cur) rest

/-- `str.split()`: split on whitespace runs, discarding empty words. -/
def pySplit (s : List Char) : List (List Char) := pySplitGo [] s

/-- The character set of `word.strip('.,!?;:"()[]\x7b\x7d')` (the last two
characters being the curly braces). -/
def stripPunctSet : List Char :=
  ['.', ',', '!', '?', ';', ':', '"', '(', ')', '[', ']', '\x7b', '\x7d']

def isStripPunct (c : Char) : Bool := stripPunctSet.contains c

/-- `word.strip(...)` with the punctuation set above. -/
def stripPunct (w : List Char) : List Char :=
  ((w.dropWhile isStripPunct).reverse.dropWhile isStripPunct).reverse

/-- `AnswerMatcher.abbreviations`. -/
def abbreviations : List (String × String) :=
  [("usa", "united states of america"), ("us", "united states"),
   ("uk", "united kingdom"), ("ussr", "soviet union"), ("wwi", "world war 1"),
   ("ww1", "world war 1"), ("wwii", "world war 2"), ("ww2", "world war 2"),
   ("nyc", "new york city"), ("la", "los angeles"), ("sf", "san francisco"),
   ("dc", "washington dc"), ("ca", "california"), ("ny", "new york"),
   ("jr", "junior"), ("sr", "senior"), ("dr", "doctor"), ("mr", "mister"),
   ("mrs", "missus"), ("ms", "miss"), ("prof", "professor"), ("st", "saint"),
   ("mt", "mount"), ("ft", "fort"), ("co", "company"), ("corp", "corporation"),
   ("inc", "incorporated"), ("ltd", "limited"), ("etc", "et cetera"),
   ("vs", "versus"), ("aka", "also known as")]

/-- `AnswerMatcher.roman_numerals`. -/
def roman_numerals : List (String × String) :=
  [("i", "1"), ("ii", "2"), ("iii", "3"), ("iv", "4"), ("v", "5"),
   ("vi", "6"), ("vii", "7"), ("viii", "8"), ("ix", "9"), ("x", "10"),
   ("xi", "11"), ("xii", "12"), ("xiii", "13"), ("xiv", "14"), ("xv", "15"),
   ("xvi", "16"), ("xvii", "17"), ("xviii", "18"), ("xix", "19"), ("xx", "20")]

/-- `AnswerMatcher.stop_words`. -/
def stop_words : List String :=
  ["the", "a", "an", "and", "or", "but", "in", "on", "at", "to", "for",
   "of", "with", "by", "as", "is", "was", "are", "were", "be", "been",
   "being", "have", "has", "had", "do", "does", "did", "will", "would",
   "could", "should", "may", "might", "must", "can", "shall"]

/-- Dictionary lookup (`clean_word in table` / `table[clean_word]`). -/
def lookupTable (table : List (String × String)) (w : List Char) : Option (List Char) :=
  match table.find? (fun p => p.1.data == w) with
  | some p => some p.2.data
  | none => none

/-- The abbreviation / Roman-numeral expansion applied to each word of the
split text in `normalize_text` (note: on a hit the *cleaned* word's expansion
is appended; on a miss the *original* word, punctuation included, is kept). -/
def expandWord (w : List Char) : List Char :=
  let clean := stripPunct w
  match lookupTable abbreviations clean with
  | some e => e
  | none =>
    match lookupTable roman_numerals clean with
    | some e => e
    | none => w

/-- `' '.join(words)`. -/
def joinWords : List (List Char) → List Char
  | [] => []
  | [w] => w
  | w :: ws => w ++ ' ' :: joinWords ws

/-- `re.sub(r'\s+', ' ', text)`: collapse each whitespace run to one space. -/
def collapseWsL : List Char → List Char
  | [] => []
  | a :: t =>
    match t with
    | [] => if pyIsSpace a then [' '] else [a]
    | b :: _ =>
      if pyIsSpace a then
        (if pyIsSpace b then collapseWsL t else ' ' :: collapseWsL t)
      else a :: collapseWsL t

/-- `AnswerMatcher.normalize_text` on character lists: lowercase + strip,
HTML-entity decoding, NFKD + accent stripping, symbol replacement, punctuation
to spaces, per-word abbreviation / Roman-numeral expansion, whitespace
collapsing. -/
def normalizeL (s : List Char) : List Char :=
  if s.isEmpty then []
  else
    let t := pyStripL (pyLowerL s)
    let t := unescapeL t
    let t := nfkdStripAccents t
    let t := applyReplacements t
    let t := punctToSpace t
    let ws := (pySplit t).map expandWord
    let t := joinWords ws
    pyStripL (collapseWsL t)

/-- `AnswerMatcher.normalize_text`. -/
def normalize_text (s : String) : String := ⟨normalizeL s.data⟩

/-- `AnswerMatcher.extract_key_words`: split the normalised text, strip
punctuation from each word, keep the cleaned words of length > 1 that are not
stop words, as a set (modelled as a deduplicated list). -/
def extract_key_words (text : String) : List (List Char) :=
  ((pySplit (normalizeL text.data)).filterMap (fun w =>
    let clean := stripPunct w
    if clean.length > 1 && !(stop_words.any (fun s => s.data == clean))
    then some clean else none)).dedup

/-- Python substring test `needle in hay`. -/
def strContains (needle : List Char) : List Char → Bool
  | [] => needle.isEmpty
  | c :: t => needle.isPrefixOf (c :: t) || strContains needle t

/-- The local helper `remove_dots_and_spaces` of `is_match`:
`re.sub(r'[\s\.]', '', text.lower())`. -/
def remove_dots_and_spaces (text : String) : List Char :=
  (pyLowerL text.data).filter (fun c => !(pyIsSpace c || c == '.'))

/-- `AnswerMatcher.check_name_variations`; `sim` models
`difflib.SequenceMatcher(None, a, b).ratio()` (standard-library, external to
the repository). -/
def check_name_variations (sim : List Char → List Char → ℚ)
    (user_answer correct_answer : String) : Bool :=
  let user_words := pySplit (normalizeL user_answer.data)
  let correct_words := pySplit (normalizeL correct_answer.data)
  if 2 ≤ user_words.length ∧ 2 ≤ correct_words.length then
    decide (mkRat 8 10 < sim (user_words.headD []) (correct_words.headD [])) &&
    decide (mkRat 8 10 < sim (user_words.getLastD []) (correct_words.getLastD []))
  else false

/-- `AnswerMatcher.is_match(user_answer, correct_answer, threshold)`:
the ordered cascade returning `(is_match, confidence, match_type)`.
`sim` models the standard-library `difflib` similarity ratio. -/
def is_match (sim : List Char → List Char → ℚ)
    (user_answer correct_answer : String) (threshold : ℚ) : Bool × ℚ × String :=
  if user_answer = "" || correct_answer = "" then (false, 0, "empty")
  else
    let user_norm := normalizeL user_answer.data
    let correct_norm := normalizeL correct_answer.data
    if user_norm = correct_norm then (true, 1, "exact")
    else if strContains user_norm correct_norm || strContains correct_norm user_norm then
      (true, mkRat 95 100, "contains")
    else
      let user_words := extract_key_words user_answer
      let correct_words := extract_key_words correct_answer
      let kw : Option (Bool × ℚ × String) :=
        if !user_words.isEmpty && !correct_words.isEmpty then
          let inter := user_words.filter (fun w => correct_words.contains w)
          let union := user_words ++ correct_words.filter (fun w => !user_words.contains w)
          if !union.isEmpty then
            let word_similarity : ℚ := mkRat inter.length union.length
            if mkRat 7 10 ≤ word_similarity then some (true, word_similarity, "keywords")
            else none
          else none
        else none
      match kw with
      | some r => r
      | none =>
        let similarity := sim user_norm correct_norm
        if threshold ≤ similarity then (true, similarity, "fuzzy")
        else
          let ess : Option (Bool × ℚ × String) :=
            if 1 < correct_words.length then
              let essential_words := correct_words.filter (fun w => 3 < w.length)
              if !essential_words.isEmpty then
                let matched_essential :=
                  (essential_words.filter (fun w => user_words.contains w)).length
                let essential_ratio : ℚ := mkRat matched_essential essential_words.length
                if mkRat 8 10 ≤ essential_ratio then some (true, essential_ratio, "essential")
                else none
              else none
            else none
          match ess with
          | some r => r
          | none =>
            if remove_dots_and_spaces user_answer = remove_dots_and_spaces correct_answer then
              (true, mkRat 9 10, "initials")
            else if check_name_variations sim user_answer correct_answer then
              (true, mkRat 85 100, "name_variation")
            else (false, similarity, "no_match")

/-- A trivial similarity function used only to instantiate statements whose
evaluated branches never consult `sim`. -/
def simZero : List Char → List Char → ℚ := fun _ _ => 0

/-! ## The round coordinator (`TriviaBot`) -/

/-- The `UserStats` dataclass (scores as naturals: they are only ever
incremented; `last_active` as seconds on the round clock). -/
structure UserStats where
  username : String
  total_score : ℕ
  correct_answers : ℕ
  total_questions : ℕ
  streak : ℕ
  max_streak : ℕ
  last_active : ℚ
  daily_score : ℕ
  weekly_score : ℕ
  monthly_score : ℕ
deriving DecidableEq

/-- `UserStats(username=username, last_active=now)` with default counters. -/
def freshStats (username : String) (now : ℚ) : UserStats :=
  ⟨username, 0, 0, 0, 0, 0, now, 0, 0, 0⟩

/-- `TriviaBot.calculate_points`: time-tiered reward. -/
def calculate_points (response_time : ℚ) : ℕ :=
  let base_points := 10
  if response_time < 5 then base_points + 10
  else if response_time < 10 then base_points + 7
  else if response_time < 20 then base_points + 5
  else if response_time < 35 then base_points + 3
  else base_points + 1

/-- The per-user body of `TriviaBot.update_user_stats` (everything after the
dict entry for `username` exists). -/
def record_result (user : UserStats) (correct : Bool) (response_time now : ℚ) : UserStats :=
  let user := { user with total_questions := user.total_questions + 1, last_active := now }
  if correct then
    let points := calculate_points response_time
    { user with
        total_score := user.total_score + points
        correct_answers := user.correct_answers + 1
        streak := user.streak + 1
        max_streak := max user.max_streak (user.streak + 1)
        daily_score := user.daily_score + points
        weekly_score := user.weekly_score + points
        monthly_score := user.monthly_score + points }
  else { user with streak := 0 }

/-- `TriviaBot.update_user_stats` on the `user_stats` dict (modelled as an
association list): insert a fresh record if absent, then update it. -/
def update_user_stats (stats : List (String × UserStats)) (username : String)
    (correct : Bool) (response_time now : ℚ) : List (String × UserStats) :=
  let stats :=
    if (stats.find? (fun p => p.1 == username)).isNone
    then stats ++ [(username, freshStats username now)]
    else stats
  stats.map (fun p =>
    if p.1 = username then (p.1, record_result p.2 correct response_time now) else p)

/-- One stored entry of `self.question_answers`. -/
structure AnswerRecord where
  username : String
  answer : String
  response_time : ℚ
deriving DecidableEq

/-- One scored entry built by `get_top_matching_answers`. -/
structure AnswerScore where
  username : String
  answer : String
  confidence : ℚ
  match_type : String
  is_correct : Bool
deriving DecidableEq

/-- The `answer_scores` list of `get_top_matching_answers`: classify every
stored answer against the correct answer (default threshold 0.8). -/
def answer_scores (sim : List Char → List Char → ℚ)
    (question_answers : List AnswerRecord) (correct_answer : String) : List AnswerScore :=
  question_answers.map (fun a =>
    let v := is_match sim a.answer correct_answer (mkRat 8 10)
    ⟨a.username, a.answer, v.2.1, v.2.2, v.1⟩)

/-- Stable insertion for a descending sort on `confidence` (a later arrival
goes after earlier entries with ≥ confidence), matching Python's stable
`answer_scores.sort(key=..., reverse=True)`. -/
def insertByConf (x : AnswerScore) : List AnswerScore → List AnswerScore
  | [] => [x]
  | y :: ys => if x.confidence ≤ y.confidence then y :: insertByConf x ys else x :: y :: ys

/-- Stable descending sort by confidence. -/
def sortByConfDesc (l : List AnswerScore) : List AnswerScore :=
  l.foldl (fun acc x => insertByConf x acc) []

/-- The selection loop of `get_top_matching_answers`: over the given entries,
stop once `limit` are collected, keep those with confidence > 0.3. -/
def pickTop (limit : ℕ) (acc : List AnswerScore) : List AnswerScore → List AnswerScore
  | [] => acc
  | s :: rest =>
    if limit ≤ acc.length then acc
    else if mkRat 3 10 < s.confidence then pickTop limit (acc ++ [s]) rest
    else pickTop limit acc rest

/-- `TriviaBot.get_top_matching_answers` up to its list of selected matches
(`top_matches`); the source then renders this list into a display string,
returning `""` when the list or `question_answers` is empty. -/
def get_top_matching_answers (sim : List Char → List Char → ℚ)
    (question_answers : List AnswerRecord) (correct_answer : String)
    (limit : ℕ) : List AnswerScore :=
  if question_answers = [] then []
  else
    let scores := sortByConfDesc (answer_scores sim question_answers correct_answer)
    pickTop limit [] (scores.take (limit + 2))

/-- One Reddit comment as consumed by `monitor_comments`: its id, author
(`none` models a deleted author), body, and the elapsed seconds
`(datetime.now() - question_start_time).total_seconds()` observed when it is
processed. -/
structure Comment where
  id : String
  author : Option String
  body : String
  response_time : ℚ
deriving DecidableEq

/-- The celebration reply posted for the winning comment. -/
structure WinRecord where
  username : String
  answer : String
  response_time : ℚ
  confidence : ℚ
  match_type : String
deriving DecidableEq

/-- The mutable bot state touched by `monitor_comments`. -/
structure BotState where
  has_question : Bool
  waiting_for_answer : Bool
  current_answer : String
  processed_comments : List String
  question_answers : List AnswerRecord
  user_stats : List (String × UserStats)
  winner : Option WinRecord
deriving DecidableEq

/-- The comment loop of `TriviaBot.monitor_comments`: skip already-processed
comments and the bot's own, record every processed answer, classify it with
the default threshold 0.8, and on the first correct answer update the
winner's stats, emit the celebration (`winner` field), stop waiting and
`break`.  Wrong answers update the user's stats with `correct=False`; the
random feedback replies are I/O with no state effect. -/
def monitor_step (sim : List Char → List Char → ℚ) (bot_name : String) :
    BotState → List Comment → BotState
  | st, [] => st
  | st, c :: rest =>
    if c.id ∈ st.processed_comments then monitor_step sim bot_name st rest
    else
      let st1 := { st with processed_comments := st.processed_comments ++ [c.id] }
      if c.author = some bot_name then monitor_step sim bot_name st1 rest
      else
        let username := c.author.getD "Anonymous"
        let st2 := { st1 with
          question_answers :=
            st1.question_answers ++ [(⟨username, c.body, c.response_time⟩ : AnswerRecord)] }
        let v := is_match sim c.body st2.current_answer (mkRat 8 10)
        if v.1 then
          { st2 with
              user_stats := update_user_stats st2.user_stats username true c.response_time c.response_time
              waiting_for_answer := false
              winner := some ⟨username, c.body, c.response_time, v.2.1, v.2.2⟩ }
        else
          let st3 := { st2 with
            user_stats := update_user_stats st2.user_stats username false c.response_time c.response_time }
          monitor_step sim bot_name st3 rest

/-- `TriviaBot.monitor_comments`: return immediately unless a question is
posted and still waiting for an answer, else run the comment loop. -/
def monitor_comments (sim : List Char → List Char → ℚ) (bot_name : String)
    (st : BotState) (comments : List Comment) : BotState :=
  if !st.has_question || !st.waiting_for_answer then st
  else monitor_step sim bot_name st comments

/-! ## Predicates for the normalisation analysis -/

/-- Every whitespace character is a plain space. -/
abbrev WsIsSpace (z : List Char) : Prop := ∀ c ∈ z, pyIsSpace c = true → c = ' '

/-- No two adjacent whitespace characters. -/
abbrev NoWsRun (z : List Char) : Prop :=
  List.Chain' (fun a b => ¬(pyIsSpace a = true ∧ pyIsSpace b = true)) z

/-- The first character, if any, is not whitespace. -/
abbrev FrontOk (z : List Char) : Prop := ∀ c, z.head? = some c → pyIsSpace c = false

/-- The last character, if any, is not whitespace. -/
abbrev BackOk (z : List Char) : Prop := ∀ c, z.getLast? = some c → pyIsSpace c = false

/-- Canonical whitespace shape: single interior spaces, non-space ends. -/
abbrev Canon (z : List Char) : Prop := WsIsSpace z ∧ NoWsRun z ∧ FrontOk z ∧ BackOk z

/-- Characters that can appear in normalised output: fixed under lowercasing,
kept by the punctuation filter, and whitespace only as a plain space. -/
abbrev GoodChar (c : Char) : Prop :=
  pyLowerChar c = c ∧ keepChar c = true ∧ (pyIsSpace c = false ∨ c = ' ')

/-! ## Helper lemmas -/

theorem strContains_nil (l : List Char) : strContains [] l = true := by
  cases l <;> simp [strContains, List.isPrefixOf]

theorem record_result_streak_le (u : UserStats) (c : Bool) (rt now : ℚ) :
    (record_result u c rt now).streak ≤ (record_result u c rt now).max_streak := by
  cases c <;> simp [record_result]

theorem record_result_max_streak_mono (u : UserStats) (c : Bool) (rt now : ℚ) :
    u.max_streak ≤ (record_result u c rt now).max_streak := by
  cases c <;> simp [record_result]

theorem foldl_record_result_streak_le :
    ∀ (evs : List (Bool × ℚ)) (u : UserStats), u.streak ≤ u.max_streak →
      (evs.foldl (fun v e => record_result v e.1 e.2 e.2) u).streak ≤
        (evs.foldl (fun v e => record_result v e.1 e.2 e.2) u).max_streak := by
  intro evs
  induction evs with
  | nil => intro u h; exact h
  | cons e evs ih =>
    intro u h
    exact ih _ (record_result_streak_le u e.1 e.2 e.2)

/-- Core of the first-correct-wins argument: if every comment before `c` in a
batch is fresh, not the bot's, and classified as no match, and `c` is fresh,
not the bot's, and classified as a match, then the comment loop resolves at
`c` (celebration for `c`, waiting flag cleared) and never looks at the
comments after `c`. -/
theorem monitor_step_first_match (sim : List Char → List Char → ℚ) (bot_name : String) :
    ∀ (pre : List Comment) (st : BotState) (c : Comment) (post : List Comment),
      (∀ x ∈ pre ++ [c], x.id ∉ st.processed_comments) →
      ((pre ++ [c]).map Comment.id).Nodup →
      (∀ x ∈ pre ++ [c], x.author ≠ some bot_name) →
      (∀ x ∈ pre, (is_match sim x.body st.current_answer (mkRat 8 10)).1 = false) →
      (is_match sim c.body st.current_answer (mkRat 8 10)).1 = true →
      monitor_step sim bot_name st (pre ++ c :: post) =
        monitor_step sim bot_name st (pre ++ [c]) ∧
      (monitor_step sim bot_name st (pre ++ c :: post)).winner =
        some ⟨c.author.getD "Anonymous", c.body, c.response_time,
              (is_match sim c.body st.current_answer (mkRat 8 10)).2.1,
              (is_match sim c.body st.current_answer (mkRat 8 10)).2.2⟩ ∧
      (monitor_step sim bot_name st (pre ++ c :: post)).waiting_for_answer = false := by
  intro pre
  induction pre with
  | nil =>
    intro st c post hfresh hnodup hbot hpre hc
    have h1 : c.id ∉ st.processed_comments := hfresh c (by simp)
    have h2 : ¬ c.author = some bot_name := hbot c (by simp)
    simp [monitor_step, if_neg h1, if_neg h2, hc]
  | cons x pre ih =>
    intro st c post hfresh hnodup hbot hpre hc
    have hx1 : x.id ∉ st.processed_comments := hfresh x (by simp)
    have hx2 : ¬ x.author = some bot_name := hbot x (by simp)
    have hx3 : (is_match sim x.body st.current_answer (mkRat 8 10)).1 = false :=
      hpre x (by simp)
    have hxid : ∀ y ∈ pre ++ [c], y.id ≠ x.id := by
      intro y hy
      have := hnodup
      simp only [List.cons_append, List.map_cons, List.nodup_cons] at this
      intro hcontra
      exact this.1 (hcontra ▸ List.mem_map_of_mem Comment.id hy)
    simp only [List.cons_append, monitor_step, if_neg hx1, if_neg hx2, hx3]
    simp only [Bool.false_eq_true, if_false]
    apply ih
    · intro y hy
      have hmem : y.id ∉ st.processed_comments := hfresh y (List.mem_cons_of_mem x hy)
      have hne : y.id ≠ x.id := hxid y hy
      simp [List.mem_append, hmem, hne]
    · exact (List.nodup_cons.mp (by simpa using hnodup)).2
    · intro y hy; exact hbot y (by simp [hy])
    · intro y hy; exact hpre y (by simp [hy])
    · exact hc

/-! ## Whitespace structure of normalised text (for the idempotence analysis) -/

theorem canon_nil : Canon ([] : List Char) :=
  ⟨fun c hc => absurd hc (by simp), List.chain'_nil,
   fun c hc => by simp at hc, fun c hc => by simp at hc⟩

theorem collapseWsL_single (a : Char) :
    collapseWsL [a] = if pyIsSpace a = true then [' '] else [a] := rfl

theorem collapseWsL_cons_cons (a b : Char) (t : List Char) :
    collapseWsL (a :: b :: t) =
      if pyIsSpace a = true then
        (if pyIsSpace b = true then collapseWsL (b :: t) else ' ' :: collapseWsL (b :: t))
      else a :: collapseWsL (b :: t) := rfl

theorem collapseWsL_wsIsSpace : ∀ z, WsIsSpace (collapseWsL z) := by
  intro z
  induction z with
  | nil => intro c hc; simp [collapseWsL] at hc
  | cons a t ih =>
    cases t with
    | nil =>
      intro c hc h
      by_cases ha : pyIsSpace a = true
      · rw [collapseWsL_single, if_pos ha] at hc
        simpa using hc
      · rw [collapseWsL_single, if_neg ha] at hc
        simp only [List.mem_singleton] at hc
        subst hc; exact absurd h ha
    | cons b t' =>
      intro c hc h
      by_cases ha : pyIsSpace a = true
      · by_cases hb : pyIsSpace b = true
        · rw [collapseWsL_cons_cons, if_pos ha, if_pos hb] at hc
          exact ih c hc h
        · rw [collapseWsL_cons_cons, if_pos ha, if_neg hb] at hc
          rcases List.mem_cons.mp hc with h1 | h1
          · exact h1
          · exact ih c h1 h
      · rw [collapseWsL_cons_cons, if_neg ha] at hc
        rcases List.mem_cons.mp hc with h1 | h1
        · subst h1; exact absurd h ha
        · exact ih c h1 h

theorem collapseWsL_head_nonws (b : Char) (t : List Char) (hb : pyIsSpace b = false) :
    (collapseWsL (b :: t)).head? = some b := by
  have hb' : ¬ pyIsSpace b = true := by simp [hb]
  cases t with
  | nil => rw [collapseWsL_single, if_neg hb']; rfl
  | cons c t' => rw [collapseWsL_cons_cons, if_neg hb']; rfl

theorem collapseWsL_noWsRun : ∀ z, NoWsRun (collapseWsL z) := by
  intro z
  induction z with
  | nil => exact List.chain'_nil
  | cons a t ih =>
    cases t with
    | nil =>
      by_cases ha : pyIsSpace a = true
      · rw [collapseWsL_single, if_pos ha]
        exact List.chain'_singleton _
      · rw [collapseWsL_single, if_neg ha]
        exact List.chain'_singleton _
    | cons b t' =>
      by_cases ha : pyIsSpace a = true
      · by_cases hb : pyIsSpace b = true
        · rw [collapseWsL_cons_cons, if_pos ha, if_pos hb]
          exact ih
        · rw [collapseWsL_cons_cons, if_pos ha, if_neg hb]
          refine List.chain'_cons'.mpr ⟨?_, ih⟩
          intro y hy
          have hb' : pyIsSpace b = false := by simpa using hb
          rw [collapseWsL_head_nonws b t' hb'] at hy
          simp only [Option.mem_def, Option.some.injEq] at hy
          subst hy
          intro hcontra
          rw [hb'] at hcontra
          cases hcontra.2
      · rw [collapseWsL_cons_cons, if_neg ha]
        refine List.chain'_cons'.mpr ⟨?_, ih⟩
        intro y _
        intro hcontra
        exact absurd hcontra.1 ha

theorem collapseWsL_id : ∀ z, WsIsSpace z → NoWsRun z → collapseWsL z = z := by
  intro z
  induction z with
  | nil => intro _ _; rfl
  | cons a t ih =>
    intro hws hrun
    cases t with
    | nil =>
      by_cases ha : pyIsSpace a = true
      · have haa : a = ' ' := hws a (by simp) ha
        rw [collapseWsL_single, if_pos ha, haa]
      · rw [collapseWsL_single, if_neg ha]
    | cons b t' =>
      have hws' : WsIsSpace (b :: t') := fun c hc h => hws c (List.mem_cons_of_mem a hc) h
      have hrun' : NoWsRun (b :: t') := (List.chain'_cons.mp hrun).2
      by_cases ha : pyIsSpace a = true
      · have hb : ¬ pyIsSpace b = true := by
          have hr := (List.chain'_cons.mp hrun).1
          intro hb'
          exact hr ⟨ha, hb'⟩
        have haa : a = ' ' := hws a (by simp) ha
        rw [collapseWsL_cons_cons, if_pos ha, if_neg hb, ih hws' hrun', haa]
      · rw [collapseWsL_cons_cons, if_neg ha, ih hws' hrun']

theorem frontOk_dropWhile (z : List Char) : FrontOk (z.dropWhile pyIsSpace) := by
  induction z with
  | nil => intro c hc; simp at hc
  | cons a t ih =>
    by_cases ha : pyIsSpace a = true
    · rw [List.dropWhile_cons, if_pos ha]; exact ih
    · rw [List.dropWhile_cons, if_neg ha]
      intro c hc
      simp only [List.head?_cons, Option.some.injEq] at hc
      subst hc
      simpa using ha

theorem lstripL_id (z : List Char) (h : FrontOk z) : lstripL z = z := by
  cases z with
  | nil => rfl
  | cons a t =>
    have := h a rfl
    rw [lstripL, List.dropWhile_cons, if_neg (by simp [this])]

theorem pyStripL_subset (z : List Char) : ∀ c ∈ pyStripL z, c ∈ z := by
  intro c hc
  simp only [pyStripL] at hc
  rw [List.mem_reverse] at hc
  have h1 := (List.dropWhile_suffix pyIsSpace).subset hc
  rw [List.mem_reverse] at h1
  exact (List.dropWhile_suffix pyIsSpace).subset h1

theorem noWsRun_reverse (z : List Char) (h : NoWsRun z) : NoWsRun z.reverse := by
  rw [NoWsRun, List.chain'_reverse]
  exact h.imp (fun a b hab hcontra => hab ⟨hcontra.2, hcontra.1⟩)

theorem rstrip_prefix (z : List Char) :
    (z.reverse.dropWhile pyIsSpace).reverse <+: z := by
  have h := List.dropWhile_suffix (l := z.reverse) pyIsSpace
  have h2 := List.reverse_prefix.mpr h
  simpa using h2

theorem frontOk_of_prefix {z' z : List Char} (h : z' <+: z) (hz : FrontOk z) :
    FrontOk z' := by
  intro c hc
  obtain ⟨t, rfl⟩ := h
  cases z' with
  | nil => simp at hc
  | cons a u =>
    simp only [List.head?_cons, Option.some.injEq] at hc
    rw [← hc]
    exact hz a (by simp)

theorem backOk_rstrip (z : List Char) :
    BackOk ((z.reverse.dropWhile pyIsSpace).reverse) := by
  intro c hc
  rw [List.getLast?_reverse] at hc
  exact frontOk_dropWhile z.reverse c hc

theorem pyStripL_id (z : List Char) (hf : FrontOk z) (hb : BackOk z) :
    pyStripL z = z := by
  have h1 : lstripL z = z := lstripL_id z hf
  have h2 : FrontOk z.reverse := by
    intro c hc
    rw [List.head?_reverse] at hc
    exact hb c hc
  have h3 : z.reverse.dropWhile pyIsSpace = z.reverse := by
    have := lstripL_id z.reverse h2
    simpa [lstripL] using this
  simp only [pyStripL, h1, h3, List.reverse_reverse]

theorem pySplitGo_nil_eq (cur : List Char) :
    pySplitGo cur [] = if cur.isEmpty then [] else [cur.reverse] := rfl

theorem pySplitGo_cons_eq (cur : List Char) (c : Char) (rest : List Char) :
    pySplitGo cur (c :: rest) =
      if pyIsSpace c = true then
        (if cur.isEmpty then pySplitGo [] rest else cur.reverse :: pySplitGo [] rest)
      else pySplitGo (c :: cur) rest := rfl

theorem dropWhile_head_false (p : Char → Bool) :
    ∀ (l : List Char) (d : Char) (r' : List Char),
      l.dropWhile p = d :: r' → p d = false := by
  intro l
  induction l with
  | nil => intro d r' h; simp at h
  | cons a t ih =>
    intro d r' h
    by_cases hp : p a = true
    · rw [List.dropWhile_cons, if_pos hp] at h
      exact ih d r' h
    · rw [List.dropWhile_cons, if_neg hp] at h
      simp only [List.cons.injEq] at h
      obtain ⟨rfl, rfl⟩ := h
      simpa using hp

theorem pySplitGo_ne_nil : ∀ (z cur : List Char), cur ≠ [] → pySplitGo cur z ≠ [] := by
  intro z
  induction z with
  | nil =>
    intro cur h
    rw [pySplitGo_nil_eq, if_neg (by simp [List.isEmpty_iff, h])]
    simp
  | cons c t ih =>
    intro cur h
    rw [pySplitGo_cons_eq]
    by_cases hc : pyIsSpace c = true
    · rw [if_pos hc, if_neg (by simp [List.isEmpty_iff, h])]
      simp
    · rw [if_neg hc]
      exact ih (c :: cur) (by simp)

theorem pySplitGo_word :
    ∀ (u cur z : List Char), (∀ c ∈ u, pyIsSpace c = false) →
      pySplitGo cur (u ++ z) = pySplitGo (u.reverse ++ cur) z := by
  intro u
  induction u with
  | nil => intro cur z _; simp
  | cons c u' ih =>
    intro cur z h
    have hc : ¬ pyIsSpace c = true := by simp [h c (by simp)]
    rw [List.cons_append, pySplitGo_cons_eq, if_neg hc,
      ih (c :: cur) z (fun d hd => h d (by simp [hd]))]
    congr 1
    simp

theorem pySplitGo_chars (p : Char → Prop) :
    ∀ (z cur : List Char), (∀ c ∈ cur, p c ∧ pyIsSpace c = false) →
      (∀ c ∈ z, p c) → ∀ w ∈ pySplitGo cur z, ∀ c ∈ w, p c ∧ pyIsSpace c = false := by
  intro z
  induction z with
  | nil =>
    intro cur hcur _ w hw c hc
    rw [pySplitGo_nil_eq] at hw
    split at hw
    · simp at hw
    · simp only [List.mem_singleton] at hw
      subst hw
      rw [List.mem_reverse] at hc
      exact hcur c hc
  | cons d t ih =>
    intro cur hcur hz w hw c hc
    rw [pySplitGo_cons_eq] at hw
    by_cases hd : pyIsSpace d = true
    · rw [if_pos hd] at hw
      split at hw
      · exact ih [] (by simp) (fun e he => hz e (by simp [he])) w hw c hc
      · rcases List.mem_cons.mp hw with h1 | h1
        · subst h1
          rw [List.mem_reverse] at hc
          exact hcur c hc
        · exact ih [] (by simp) (fun e he => hz e (by simp [he])) w h1 c hc
    · rw [if_neg hd] at hw
      refine ih (d :: cur) ?_ (fun e he => hz e (by simp [he])) w hw c hc
      intro e he
      rcases List.mem_cons.mp he with h1 | h1
      · subst h1; exact ⟨hz e (by simp), by simpa using hd⟩
      · exact hcur e h1

theorem joinWords_single (w : List Char) : joinWords [w] = w := rfl

theorem joinWords_cons_cons (w w2 : List Char) (ws : List (List Char)) :
    joinWords (w :: w2 :: ws) = w ++ ' ' :: joinWords (w2 :: ws) := rfl

theorem joinWords_pySplit_id :
    ∀ (n : ℕ) (z : List Char), z.length ≤ n → Canon z → joinWords (pySplit z) = z := by
  intro n
  induction n with
  | zero =>
    intro z hz _
    have hznil : z = [] := by
      cases z with
      | nil => rfl
      | cons a t => simp at hz
    subst hznil; rfl
  | succ n ih =>
    intro z hz hcanon
    obtain ⟨hws, hrun, hfront, hback⟩ := hcanon
    cases z with
    | nil => rfl
    | cons a t =>
      have ha : pyIsSpace a = false := hfront a rfl
      have hwchars : ∀ c ∈ (a :: t).takeWhile (fun c => !pyIsSpace c),
          pyIsSpace c = false := by
        intro c hc
        have := List.mem_takeWhile_imp hc
        simpa using this
      have hsplit : (a :: t).takeWhile (fun c => !pyIsSpace c) ++
          (a :: t).dropWhile (fun c => !pyIsSpace c) = a :: t :=
        List.takeWhile_append_dropWhile _ _
      have hwne : (a :: t).takeWhile (fun c => !pyIsSpace c) ≠ [] := by
        rw [List.takeWhile_cons, if_pos (by simp [ha])]
        simp
      have e1 : pySplit (a :: t) =
          pySplitGo (((a :: t).takeWhile (fun c => !pyIsSpace c)).reverse)
            ((a :: t).dropWhile (fun c => !pyIsSpace c)) := by
        have h0 : pySplit (a :: t) =
            pySplitGo [] ((a :: t).takeWhile (fun c => !pyIsSpace c) ++
              (a :: t).dropWhile (fun c => !pyIsSpace c)) := by
          rw [hsplit]; rfl
        rw [h0, pySplitGo_word _ [] _ hwchars, List.append_nil]
      cases hrcase : (a :: t).dropWhile (fun c => !pyIsSpace c) with
      | nil =>
        rw [e1, hrcase, pySplitGo_nil_eq,
          if_neg (by simp [List.isEmpty_iff, List.reverse_eq_nil_iff, hwne]),
          List.reverse_reverse, joinWords_single]
        have hfin := hsplit
        rw [hrcase, List.append_nil] at hfin
        exact hfin
      | cons d r' =>
        have hd : pyIsSpace d = true := by
          have := dropWhile_head_false (fun c => !pyIsSpace c) (a :: t) d r' hrcase
          simpa using this
        have hdz : d ∈ a :: t := by
          have hmem : d ∈ (a :: t).dropWhile (fun c => !pyIsSpace c) := by
            rw [hrcase]; simp
          exact (List.dropWhile_suffix _).subset hmem
        have hd' : d = ' ' := hws d hdz hd
        cases r' with
        | nil =>
          exfalso
          have hlast : (a :: t).getLast? = some d := by
            rw [← hsplit, hrcase, List.getLast?_concat]
          have hcontra := hback d hlast
          rw [hd] at hcontra
          cases hcontra
        | cons e r'' =>
          have hsufr : (d :: e :: r'') <:+ (a :: t) := by
            rw [← hrcase]; exact List.dropWhile_suffix _
          have hrunr : NoWsRun (d :: e :: r'') := hrun.suffix hsufr
          have he : pyIsSpace e = false := by
            have hr := (List.chain'_cons.mp hrunr).1
            by_cases he' : pyIsSpace e = true
            · exact absurd ⟨hd, he'⟩ hr
            · simpa using he'
          have hlasteq : (a :: t).getLast? = (e :: r'').getLast? := by
            conv_lhs => rw [← hsplit, hrcase]
            rw [List.getLast?_append_of_ne_nil _ (by simp)]
            rw [show (d :: e :: r'') = [d] ++ (e :: r'') from rfl,
              List.getLast?_append_of_ne_nil _ (by simp)]
          have hcanon' : Canon (e :: r'') := by
            refine ⟨?_, (List.chain'_cons.mp hrunr).2, ?_, ?_⟩
            · intro c hc h
              exact hws c (hsufr.subset (List.mem_cons_of_mem d hc)) h
            · intro c hc
              simp only [List.head?_cons, Option.some.injEq] at hc
              rw [← hc]; exact he
            · intro c hc
              exact hback c (hlasteq.trans hc)
          have hlen : (e :: r'').length ≤ n := by
            have h1 : (a :: t).length =
                ((a :: t).takeWhile (fun c => !pyIsSpace c)).length +
                  (d :: e :: r'').length := by
              conv_lhs => rw [← hsplit, hrcase]
              rw [List.length_append]
            have h2 : 1 ≤ ((a :: t).takeWhile (fun c => !pyIsSpace c)).length :=
              List.length_pos.mpr hwne
            simp only [List.length_cons] at h1 hz ⊢
            omega
          have ihr := ih (e :: r'') hlen hcanon'
          rw [e1, hrcase, pySplitGo_cons_eq, if_pos hd,
            if_neg (by simp [List.isEmpty_iff, List.reverse_eq_nil_iff, hwne]),
            List.reverse_reverse]
          have hpsne : pySplitGo [] (e :: r'') ≠ [] := by
            rw [pySplitGo_cons_eq, if_neg (by simp [he])]
            exact pySplitGo_ne_nil r'' [e] (by simp)
          obtain ⟨q, qs, hq⟩ : ∃ q qs, pySplitGo [] (e :: r'') = q :: qs := by
            cases hps : pySplitGo [] (e :: r'') with
            | nil => exact absurd hps hpsne
            | cons q qs => exact ⟨q, qs, rfl⟩
          rw [hq, joinWords_cons_cons, ← hq]
          rw [show pySplitGo [] (e :: r'') = pySplit (e :: r'') from rfl, ihr]
          conv_rhs => rw [← hsplit, hrcase]
          rw [hd']

theorem canon_pyStripL_collapse (t : List Char) : Canon (pyStripL (collapseWsL t)) := by
  have hws : WsIsSpace (collapseWsL t) := collapseWsL_wsIsSpace t
  have hrun : NoWsRun (collapseWsL t) := collapseWsL_noWsRun t
  have hvfront : FrontOk ((collapseWsL t).dropWhile pyIsSpace) :=
    frontOk_dropWhile (collapseWsL t)
  have hvws : WsIsSpace ((collapseWsL t).dropWhile pyIsSpace) :=
    fun c hc h => hws c ((List.dropWhile_suffix pyIsSpace).subset hc) h
  have hvrun : NoWsRun ((collapseWsL t).dropWhile pyIsSpace) :=
    hrun.suffix (List.dropWhile_suffix pyIsSpace)
  have hpre := rstrip_prefix ((collapseWsL t).dropWhile pyIsSpace)
  refine ⟨?_, ?_, ?_, ?_⟩
  · exact fun c hc h => hvws c (hpre.subset hc) h
  · exact hvrun.prefix hpre
  · exact frontOk_of_prefix hpre hvfront
  · exact backOk_rstrip ((collapseWsL t).dropWhile pyIsSpace)

/-! ## Character tracking through the normalisation pipeline -/

theorem pyLowerChar_fix (c : Char) : pyLowerChar (pyLowerChar c) = pyLowerChar c := by
  cases h : lowerTable.find? (fun p => p.1 == c) with
  | none =>
    have h1 : pyLowerChar c = c := by unfold pyLowerChar; rw [h]
    rw [h1, h1]
  | some pr =>
    have hmem : pr ∈ lowerTable := List.mem_of_find?_eq_some h
    have h1 : pyLowerChar c = pr.2 := by unfold pyLowerChar; rw [h]
    have key : ∀ pr ∈ lowerTable, ∀ q ∈ lowerTable, (q.1 == pr.2) = false := by decide
    have hnone : lowerTable.find? (fun q => q.1 == pr.2) = none := by
      rw [List.find?_eq_none]
      intro q hq
      simp [key pr hmem q hq]
    rw [h1]
    unfold pyLowerChar
    rw [hnone]

theorem pyLowerL_chars (s : List Char) : ∀ c ∈ pyLowerL s, pyLowerChar c = c := by
  intro c hc
  simp only [pyLowerL, List.mem_map] at hc
  obtain ⟨a, _, rfl⟩ := hc
  exact pyLowerChar_fix a

theorem tryEntity_spec :
    ∀ (es : List (List Char × List Char)) (s r s' : List Char),
      tryEntity es s = some (r, s') → (∃ e ∈ es, r = e.2) ∧ s' <:+ s := by
  intro es
  induction es with
  | nil => intro s r s' h; simp [tryEntity] at h
  | cons e es ih =>
    intro s r s' h
    obtain ⟨nm, rp⟩ := e
    simp only [tryEntity] at h
    split at h
    · simp only [Option.some.injEq, Prod.mk.injEq] at h
      obtain ⟨rfl, rfl⟩ := h
      exact ⟨⟨(nm, rp), by simp, rfl⟩, List.drop_suffix _ _⟩
    · obtain ⟨⟨e', he', hr⟩, hs⟩ := ih s r s' h
      exact ⟨⟨e', by simp [he'], hr⟩, hs⟩

theorem unescapeGo_succ_cons (fuel : ℕ) (c : Char) (rest : List Char) :
    unescapeGo (fuel + 1) (c :: rest) =
      if c == '&' then
        match tryEntity entities rest with
        | some (repl, rest') => repl ++ unescapeGo fuel rest'
        | none => '&' :: unescapeGo fuel rest
      else c :: unescapeGo fuel rest := rfl

theorem unescapeGo_chars (p : Char → Prop)
    (hent : ∀ e ∈ entities, ∀ c ∈ e.2, p c) :
    ∀ (fuel : ℕ) (s : List Char), (∀ c ∈ s, p c) → ∀ c ∈ unescapeGo fuel s, p c := by
  intro fuel
  induction fuel with
  | zero => intro s hs c hc; exact hs c hc
  | succ fuel ih =>
    intro s hs c hc
    cases s with
    | nil => simp [unescapeGo] at hc
    | cons a rest =>
      by_cases ha : (a == '&') = true
      · cases htry : tryEntity entities rest with
        | none =>
          rw [unescapeGo_succ_cons, if_pos ha] at hc
          simp only [htry] at hc
          rcases List.mem_cons.mp hc with h1 | h1
          · have ha' : a = '&' := by simpa using ha
            have := hs a (by simp)
            rw [ha'] at this
            rw [h1]
            exact this
          · exact ih rest (fun d hd => hs d (by simp [hd])) c h1
        | some pr =>
          obtain ⟨rp, rest'⟩ := pr
          rw [unescapeGo_succ_cons, if_pos ha] at hc
          simp only [htry] at hc
          obtain ⟨⟨e, hemem, her⟩, hsuffix⟩ := tryEntity_spec entities rest rp rest' htry
          rcases List.mem_append.mp hc with h1 | h1
          · rw [her] at h1
            exact hent e hemem c h1
          · exact ih rest' (fun d hd => hs d (by simp [hsuffix.subset hd])) c h1
      · rw [unescapeGo_succ_cons, if_neg ha] at hc
        rcases List.mem_cons.mp hc with h1 | h1
        · rw [h1]; exact hs a (by simp)
        · exact ih rest (fun d hd => hs d (by simp [hd])) c h1

theorem unescapeGo_id :
    ∀ (fuel : ℕ) (s : List Char), (∀ c ∈ s, c ≠ '&') → unescapeGo fuel s = s := by
  intro fuel
  induction fuel with
  | zero => intro s _; rfl
  | succ fuel ih =>
    intro s hs
    cases s with
    | nil => rfl
    | cons a rest =>
      have ha : ¬ (a == '&') = true := by
        simp only [beq_iff_eq]
        exact hs a (by simp)
      rw [unescapeGo_succ_cons, if_neg ha, ih rest (fun d hd => hs d (by simp [hd]))]

theorem replaceAllL_cons (pat : Char) (repl : List Char) (c : Char) (rest : List Char) :
    replaceAllL pat repl (c :: rest) =
      if c == pat then repl ++ replaceAllL pat repl rest
      else c :: replaceAllL pat repl rest := rfl

theorem replaceAllL_chars (p : Char → Prop) (pat : Char) (repl : List Char)
    (hrepl : ∀ c ∈ repl, p c) :
    ∀ s, (∀ c ∈ s, p c) → ∀ c ∈ replaceAllL pat repl s, p c := by
  intro s
  induction s with
  | nil => intro _ c hc; simp [replaceAllL] at hc
  | cons a rest ih =>
    intro hs c hc
    rw [replaceAllL_cons] at hc
    by_cases ha : (a == pat) = true
    · rw [if_pos ha] at hc
      rcases List.mem_append.mp hc with h1 | h1
      · exact hrepl c h1
      · exact ih (fun d hd => hs d (by simp [hd])) c h1
    · rw [if_neg ha] at hc
      rcases List.mem_cons.mp hc with h1 | h1
      · rw [h1]; exact hs a (by simp)
      · exact ih (fun d hd => hs d (by simp [hd])) c h1

theorem replaceAllL_id (pat : Char) (repl : List Char) :
    ∀ s, (∀ c ∈ s, (c == pat) = false) → replaceAllL pat repl s = s := by
  intro s
  induction s with
  | nil => intro _; rfl
  | cons a rest ih =>
    intro hs
    rw [replaceAllL_cons, if_neg (by simp [hs a (by simp)]),
      ih (fun d hd => hs d (by simp [hd]))]

theorem foldl_replace_chars (p : Char → Prop) :
    ∀ (tab : List (Char × List Char)) (s : List Char),
      (∀ pr ∈ tab, ∀ c ∈ pr.2, p c) → (∀ c ∈ s, p c) →
      ∀ c ∈ tab.foldl (fun t pr => replaceAllL pr.1 pr.2 t) s, p c := by
  intro tab
  induction tab with
  | nil => intro s _ hs c hc; exact hs c hc
  | cons pr tab ih =>
    intro s htab hs c hc
    rw [List.foldl_cons] at hc
    exact ih _ (fun q hq => htab q (by simp [hq]))
      (replaceAllL_chars p pr.1 pr.2 (htab pr (by simp)) s hs) c hc

theorem foldl_replace_id :
    ∀ (tab : List (Char × List Char)) (s : List Char),
      (∀ pr ∈ tab, ∀ c ∈ s, (c == pr.1) = false) →
      tab.foldl (fun t pr => replaceAllL pr.1 pr.2 t) s = s := by
  intro tab
  induction tab with
  | nil => intro s _; rfl
  | cons pr tab ih =>
    intro s h
    rw [List.foldl_cons, replaceAllL_id pr.1 pr.2 s (h pr (by simp)),
      ih s (fun q hq c hc => h q (by simp [hq]) c hc)]

theorem applyReplacements_chars (p : Char → Prop)
    (htab : ∀ pr ∈ replacements, ∀ c ∈ pr.2, p c) (s : List Char)
    (hs : ∀ c ∈ s, p c) : ∀ c ∈ applyReplacements s, p c :=
  foldl_replace_chars p replacements s htab hs

theorem applyReplacements_id (s : List Char) (h : ∀ c ∈ s, keepChar c = true) :
    applyReplacements s = s := by
  apply foldl_replace_id
  intro pr hpr c hc
  have hkey : ∀ pr ∈ replacements, keepChar pr.1 = false := by decide
  by_cases hcc : c = pr.1
  · exfalso
    have h1 := h c hc
    rw [hcc, hkey pr hpr] at h1
    cases h1
  · simp [hcc]

theorem punctToSpace_keep (s : List Char) : ∀ c ∈ punctToSpace s, keepChar c = true := by
  intro c hc
  simp only [punctToSpace, List.mem_map] at hc
  obtain ⟨a, _, rfl⟩ := hc
  by_cases hk : keepChar a = true
  · rw [if_pos hk]; exact hk
  · rw [if_neg hk]; decide

theorem punctToSpace_chars (p : Char → Prop) (hsp : p ' ') (s : List Char)
    (h : ∀ c ∈ s, p c) : ∀ c ∈ punctToSpace s, p c := by
  intro c hc
  simp only [punctToSpace, List.mem_map] at hc
  obtain ⟨a, ha, rfl⟩ := hc
  by_cases hk : keepChar a = true
  · rw [if_pos hk]; exact h a ha
  · rw [if_neg hk]; exact hsp

theorem punctToSpace_id (s : List Char) (h : ∀ c ∈ s, keepChar c = true) :
    punctToSpace s = s := by
  simp only [punctToSpace]
  have hmap : ∀ a ∈ s, (if keepChar a = true then a else ' ') = id a := by
    intro a ha
    rw [if_pos (h a ha)]
    rfl
  rw [List.map_congr_left hmap, List.map_id]

theorem joinWords_chars (p : Char → Prop) (hsp : p ' ') :
    ∀ (L : List (List Char)), (∀ w ∈ L, ∀ c ∈ w, p c) → ∀ c ∈ joinWords L, p c := by
  intro L
  induction L with
  | nil => intro _ c hc; simp [joinWords] at hc
  | cons w ws ih =>
    intro h c hc
    cases ws with
    | nil =>
      rw [joinWords_single] at hc
      exact h w (by simp) c hc
    | cons w2 ws2 =>
      rw [joinWords_cons_cons] at hc
      rcases List.mem_append.mp hc with h1 | h1
      · exact h w (by simp) c h1
      · rcases List.mem_cons.mp h1 with h2 | h2
        · rw [h2]; exact hsp
        · exact ih (fun v hv => h v (by simp [hv])) c h2

theorem collapseWsL_chars (p : Char → Prop) (hsp : p ' ') :
    ∀ s, (∀ c ∈ s, p c) → ∀ c ∈ collapseWsL s, p c := by
  intro s
  induction s with
  | nil => intro _ c hc; simp [collapseWsL] at hc
  | cons a t ih =>
    intro hs c hc
    cases t with
    | nil =>
      rw [collapseWsL_single] at hc
      split at hc
      · simp only [List.mem_singleton] at hc; rw [hc]; exact hsp
      · simp only [List.mem_singleton] at hc; rw [hc]; exact hs a (by simp)
    | cons b t' =>
      rw [collapseWsL_cons_cons] at hc
      have hrest : ∀ d ∈ b :: t', p d := fun d hd => hs d (by simp [hd])
      split at hc
      · split at hc
        · exact ih hrest c hc
        · rcases List.mem_cons.mp hc with h1 | h1
          · rw [h1]; exact hsp
          · exact ih hrest c h1
      · rcases List.mem_cons.mp hc with h1 | h1
        · rw [h1]; exact hs a (by simp)
        · exact ih hrest c h1

theorem lookupTable_some (tab : List (String × String)) (w e : List Char)
    (h : lookupTable tab w = some e) : ∃ pr ∈ tab, e = pr.2.data := by
  simp only [lookupTable] at h
  cases hf : tab.find? (fun p => p.1.data == w) with
  | none => rw [hf] at h; cases h
  | some pr =>
    rw [hf] at h
    simp only [Option.some.injEq] at h
    exact ⟨pr, List.mem_of_find?_eq_some hf, h.symm⟩

theorem expandWord_cases (w : List Char) :
    expandWord w = w ∨ (∃ pr ∈ abbreviations, expandWord w = pr.2.data) ∨
      (∃ pr ∈ roman_numerals, expandWord w = pr.2.data) := by
  cases h1 : lookupTable abbreviations (stripPunct w) with
  | some e =>
    obtain ⟨pr, hpr, he⟩ := lookupTable_some _ _ _ h1
    right; left
    refine ⟨pr, hpr, ?_⟩
    simp only [expandWord, h1]
    exact he
  | none =>
    cases h2 : lookupTable roman_numerals (stripPunct w) with
    | some e =>
      obtain ⟨pr, hpr, he⟩ := lookupTable_some _ _ _ h2
      right; right
      refine ⟨pr, hpr, ?_⟩
      simp only [expandWord, h1, h2]
      exact he
    | none =>
      left
      simp only [expandWord, h1, h2]

theorem abbreviations_goodChars :
    ∀ pr ∈ abbreviations, ∀ c ∈ pr.2.data, GoodChar c := by decide

theorem roman_numerals_goodChars :
    ∀ pr ∈ roman_numerals, ∀ c ∈ pr.2.data, GoodChar c := by decide

theorem goodChar_space : GoodChar ' ' := by decide

theorem entities_lowStable : ∀ e ∈ entities, ∀ c ∈ e.2, pyLowerChar c = c := by decide

theorem replacements_lowStable :
    ∀ pr ∈ replacements, ∀ c ∈ pr.2, pyLowerChar c = c := by decide

theorem normalizeL_goodChars (x : List Char) : ∀ c ∈ normalizeL x, GoodChar c := by
  intro c hc
  simp only [normalizeL] at hc
  by_cases hx : x.isEmpty = true
  · rw [if_pos hx] at hc
    simp at hc
  · rw [if_neg hx] at hc
    have h2 : ∀ c ∈ pyStripL (pyLowerL x), pyLowerChar c = c :=
      fun c hc => pyLowerL_chars x c (pyStripL_subset _ c hc)
    have h3 : ∀ c ∈ unescapeL (pyStripL (pyLowerL x)), pyLowerChar c = c :=
      unescapeGo_chars _ entities_lowStable _ _ h2
    have h4 : ∀ c ∈ applyReplacements (nfkdStripAccents (unescapeL (pyStripL (pyLowerL x)))),
        pyLowerChar c = c :=
      applyReplacements_chars _ replacements_lowStable _ h3
    have h5a : ∀ c ∈ punctToSpace (applyReplacements (nfkdStripAccents
        (unescapeL (pyStripL (pyLowerL x))))), pyLowerChar c = c :=
      punctToSpace_chars _ (by decide) _ h4
    have h5b := punctToSpace_keep (applyReplacements (nfkdStripAccents
      (unescapeL (pyStripL (pyLowerL x)))))
    have h6 : ∀ w ∈ pySplit (punctToSpace (applyReplacements (nfkdStripAccents
        (unescapeL (pyStripL (pyLowerL x)))))), ∀ c ∈ w,
        (pyLowerChar c = c ∧ keepChar c = true) ∧ pyIsSpace c = false :=
      pySplitGo_chars (fun c => pyLowerChar c = c ∧ keepChar c = true) _ []
        (by simp) (fun c hc => ⟨h5a c hc, h5b c hc⟩)
    have h7 : ∀ w ∈ List.map expandWord (pySplit (punctToSpace (applyReplacements
        (nfkdStripAccents (unescapeL (pyStripL (pyLowerL x))))))), ∀ c ∈ w, GoodChar c := by
      intro w hw c hcw
      rw [List.mem_map] at hw
      obtain ⟨w0, hw0, rfl⟩ := hw
      rcases expandWord_cases w0 with hcase | ⟨pr, hpr, hcase⟩ | ⟨pr, hpr, hcase⟩
      · rw [hcase] at hcw
        obtain ⟨⟨hl, hk⟩, hnw⟩ := h6 w0 hw0 c hcw
        exact ⟨hl, hk, Or.inl hnw⟩
      · rw [hcase] at hcw
        exact abbreviations_goodChars pr hpr c hcw
      · rw [hcase] at hcw
        exact roman_numerals_goodChars pr hpr c hcw
    have h8 := joinWords_chars GoodChar goodChar_space _ h7
    have h9 := collapseWsL_chars GoodChar goodChar_space _ h8
    exact h9 c (pyStripL_subset _ c hc)

theorem canon_normalizeL (x : List Char) : Canon (normalizeL x) := by
  by_cases hx : x.isEmpty = true
  · simp only [normalizeL, if_pos hx]
    exact canon_nil
  · simp only [normalizeL, if_neg hx]
    exact canon_pyStripL_collapse _

/-- The whole normalisation pipeline is the identity on a non-empty string of
good characters in canonical whitespace shape whose tokens the
abbreviation/Roman-numeral tables leave alone. -/
theorem normalizeL_id_of_goodChars (y : List Char) (hy : y ≠ [])
    (hchars : ∀ c ∈ y, GoodChar c) (hcanon : Canon y)
    (hexp : ∀ w ∈ pySplit y, expandWord w = w) :
    normalizeL y = y := by
  obtain ⟨hws, hrun, hfront, hback⟩ := hcanon
  have hlow : ∀ c ∈ y, pyLowerChar c = c := fun c hc => (hchars c hc).1
  have hkeep : ∀ c ∈ y, keepChar c = true := fun c hc => (hchars c hc).2.1
  have e1 : pyLowerL y = y := by
    simp only [pyLowerL]
    have hmap : List.map pyLowerChar y = List.map id y :=
      List.map_congr_left (fun a ha => hlow a ha)
    rw [hmap, List.map_id]
  have e2 : pyStripL y = y := pyStripL_id y hfront hback
  have e3 : unescapeL y = y := by
    have hamp : ∀ c ∈ y, c ≠ '&' := by
      intro c hc hcc
      have hk := hkeep c hc
      rw [hcc] at hk
      exact absurd hk (by decide)
    exact unescapeGo_id y.length y hamp
  have e4 : applyReplacements y = y := applyReplacements_id y hkeep
  have e5 : punctToSpace y = y := punctToSpace_id y hkeep
  have e6 : List.map expandWord (pySplit y) = pySplit y := by
    have hmap : List.map expandWord (pySplit y) = List.map id (pySplit y) :=
      List.map_congr_left (fun w hw => hexp w hw)
    rw [hmap, List.map_id]
  have e7 : joinWords (pySplit y) = y :=
    joinWords_pySplit_id y.length y (Nat.le_refl _) ⟨hws, hrun, hfront, hback⟩
  have e8 : collapseWsL y = y := collapseWsL_id y hws hrun
  have hyE : y.isEmpty = false := by simp [List.isEmpty_iff, hy]
  simp only [normalizeL, hyE, Bool.false_eq_true, if_false, nfkdStripAccents]
  rw [e1, e2, e3, e4, e5, e6, e7, e8, e2]

/-! ## Claims -/

/-- C1: for every round (open state, fresh, non-bot comments) and every fixed
ordered list of submissions processed in arrival order, if submission `c` is
the first whose classification against the round's reference answer yields
`isMatch = true`, then the round resolves with `c` as the winner (its
celebration is emitted and the waiting flag is cleared), and the resulting
state is entirely independent of the submissions after `c` — in particular of
their confidences and verdicts. -/
theorem claim_C1_first_correct_wins (sim : List Char → List Char → ℚ)
    (bot_name : String) (st : BotState) (pre : List Comment) (c : Comment)
    (post : List Comment)
    (hq : st.has_question = true) (hw : st.waiting_for_answer = true)
    (hfresh : ∀ x ∈ pre ++ [c], x.id ∉ st.processed_comments)
    (hnodup : ((pre ++ [c]).map Comment.id).Nodup)
    (hbot : ∀ x ∈ pre ++ [c], x.author ≠ some bot_name)
    (hpre : ∀ x ∈ pre, (is_match sim x.body st.current_answer (mkRat 8 10)).1 = false)
    (hc : (is_match sim c.body st.current_answer (mkRat 8 10)).1 = true) :
    monitor_comments sim bot_name st (pre ++ c :: post) =
      monitor_comments sim bot_name st (pre ++ [c]) ∧
    (monitor_comments sim bot_name st (pre ++ c :: post)).winner =
      some ⟨c.author.getD "Anonymous", c.body, c.response_time,
            (is_match sim c.body st.current_answer (mkRat 8 10)).2.1,
            (is_match sim c.body st.current_answer (mkRat 8 10)).2.2⟩ ∧
    (monitor_comments sim bot_name st (pre ++ c :: post)).waiting_for_answer = false := by
  have hguard : (!st.has_question || !st.waiting_for_answer) = false := by
    simp [hq, hw]
  simp only [monitor_comments, hguard, Bool.false_eq_true, if_false]
  exact monitor_step_first_match sim bot_name pre st c post hfresh hnodup hbot hpre hc

/-- Witness for C1 at a concrete round: a wrong answer ("" — classified
`empty`), then the first correct answer ("paris" against "Paris"), then a
further submission that the resolution provably ignores. -/
theorem claim_C1_first_correct_wins_witness :
    (∀ x ∈ [(⟨"id0", some "bob", "", 1⟩ : Comment)] ++ [⟨"id1", some "alice", "paris", 3⟩],
      (x.id ∉ (⟨true, true, "Paris", [], [], [], none⟩ : BotState).processed_comments)) ∧
    (is_match simZero "" "Paris" (mkRat 8 10)).1 = false ∧
    (is_match simZero "paris" "Paris" (mkRat 8 10)).1 = true ∧
    monitor_comments simZero "bot" ⟨true, true, "Paris", [], [], [], none⟩
        ([⟨"id0", some "bob", "", 1⟩] ++ ⟨"id1", some "alice", "paris", 3⟩ ::
          [⟨"id2", some "carol", "zzz", 4⟩]) =
      monitor_comments simZero "bot" ⟨true, true, "Paris", [], [], [], none⟩
        ([⟨"id0", some "bob", "", 1⟩] ++ [⟨"id1", some "alice", "paris", 3⟩]) ∧
    (monitor_comments simZero "bot" ⟨true, true, "Paris", [], [], [], none⟩
        ([⟨"id0", some "bob", "", 1⟩] ++ ⟨"id1", some "alice", "paris", 3⟩ ::
          [⟨"id2", some "carol", "zzz", 4⟩])).winner =
      some ⟨"alice", "paris", 3, 1, "exact"⟩ := by
  have h := claim_C1_first_correct_wins simZero "bot" ⟨true, true, "Paris", [], [], [], none⟩
    [⟨"id0", some "bob", "", 1⟩] ⟨"id1", some "alice", "paris", 3⟩
    [⟨"id2", some "carol", "zzz", 4⟩] (by decide) (by decide) (by decide) (by decide)
    (by decide) (by decide) (by decide)
  exact ⟨by decide, by decide, by decide, h.1, h.2.1.trans (by decide)⟩

/-- C2 (code bug): the top-matching-answers report never excludes the winning
submission, although the claim (and the source's own comment "excluding the
winner if they got it exactly right") says it ranks only non-winning
submissions.  Here the round's sole submission is the winner — an exact match
with confidence 1.0 — and it is reported as the first "top matching answer"
instead of being excluded. -/
theorem claim_C2_winner_not_excluded :
    get_top_matching_answers simZero [⟨"alice", "paris", 3⟩] "Paris" 3 =
      [⟨"alice", "paris", 1, "exact", true⟩] := by decide

/-- C3 (amended): the empty guard of `is_match` fires exactly on the empty
string — if either the candidate or the reference is `""`, the verdict is
`empty` with confidence 0 and `isMatch = false`.  (Whitespace-only inputs are
not caught by the guard; see the counterexample.) -/
theorem claim_C3_empty_guard (sim : List Char → List Char → ℚ)
    (a b : String) (thr : ℚ) (h : a = "" ∨ b = "") :
    is_match sim a b thr = (false, 0, "empty") := by
  rcases h with h | h <;> subst h <;> simp [is_match]

/-- Counterexample to C3 as stated: a whitespace-only candidate (`" "`)
against the non-empty reference `"x"` is *not* classified `empty`; its
normalisation is the empty string, which is a substring of every string, so
the verdict is `contains` with confidence 0.95 and `isMatch = true`. -/
theorem claim_C3_counterexample :
    is_match simZero " " "x" (mkRat 8 10) = (true, mkRat 95 100, "contains") ∧
    is_match simZero " " "x" (mkRat 8 10) ≠ (false, 0, "empty") := by decide

/-- Witness for the amended C3 at the concrete pair `("", "x")`. -/
theorem claim_C3_empty_guard_witness :
    ("" = "" ∨ "x" = "") ∧
    is_match simZero "" "x" (mkRat 8 10) = (false, 0, "empty") :=
  ⟨Or.inl rfl, claim_C3_empty_guard simZero "" "x" (mkRat 8 10) (Or.inl rfl)⟩

/-- C4 (amended): for all *non-empty* input strings `a` and `b`, if
`normalize(a) = normalize(b)` then `is_match` returns `exact` with
confidence 1.0 and `isMatch = true`, regardless of the threshold, of the
similarity function, and of whether later cascade rules would also match.
(For empty inputs the empty guard fires first; see the counterexample.) -/
theorem claim_C4_exact_short_circuit (sim : List Char → List Char → ℚ)
    (a b : String) (thr : ℚ) (ha : a ≠ "") (hb : b ≠ "")
    (h : normalize_text a = normalize_text b) :
    is_match sim a b thr = (true, 1, "exact") := by
  have hdata : normalizeL a.data = normalizeL b.data := by
    have := congrArg String.data h
    simpa [normalize_text] using this
  simp [is_match, ha, hb, hdata]

/-- Counterexample to C4 as stated ("for all input strings"): at `a = b = ""`
the normalised forms agree, yet the classification is `empty`, not `exact`. -/
theorem claim_C4_counterexample :
    normalize_text "" = normalize_text "" ∧
    is_match simZero "" "" (mkRat 8 10) = (false, 0, "empty") ∧
    is_match simZero "" "" (mkRat 8 10) ≠ (true, 1, "exact") := by decide

/-- Witness for the amended C4: `"A"` and `"a"` normalise identically and are
classified `exact`. -/
theorem claim_C4_exact_short_circuit_witness :
    ("A" ≠ "") ∧ ("a" ≠ "") ∧ normalize_text "A" = normalize_text "a" ∧
    is_match simZero "A" "a" (mkRat 8 10) = (true, 1, "exact") :=
  ⟨by decide, by decide, by decide,
   claim_C4_exact_short_circuit simZero "A" "a" (mkRat 8 10)
     (by decide) (by decide) (by decide)⟩

/-- C6: the reward is the pure tiered function of the response time described
by the spec — base 10 plus +10 below 5 s, +7 below 10 s, +5 below 20 s, +3
below 35 s, +1 otherwise — it is non-increasing on `[0, 45]`, and the
boundary value t = 5 falls into the "<10 s" tier with reward 17. -/
theorem claim_C6_reward_tiers :
    (∀ t : ℚ, 0 ≤ t → t < 5 → calculate_points t = 20) ∧
    (∀ t : ℚ, 5 ≤ t → t < 10 → calculate_points t = 17) ∧
    (∀ t : ℚ, 10 ≤ t → t < 20 → calculate_points t = 15) ∧
    (∀ t : ℚ, 20 ≤ t → t < 35 → calculate_points t = 13) ∧
    (∀ t : ℚ, 35 ≤ t → t ≤ 45 → calculate_points t = 11) ∧
    (∀ t₁ t₂ : ℚ, 0 ≤ t₁ → t₁ ≤ t₂ → t₂ ≤ 45 →
      calculate_points t₂ ≤ calculate_points t₁) ∧
    calculate_points 5 = 17 := by
  refine ⟨?_, ?_, ?_, ?_, ?_, ?_, ?_⟩
  · intro t h1 h2; simp [calculate_points, h2]
  · intro t h1 h2
    simp only [calculate_points]
    split_ifs <;> first | omega | linarith
  · intro t h1 h2
    simp only [calculate_points]
    split_ifs <;> first | omega | linarith
  · intro t h1 h2
    simp only [calculate_points]
    split_ifs <;> first | omega | linarith
  · intro t h1 h2
    simp only [calculate_points]
    split_ifs <;> first | omega | linarith
  · intro t₁ t₂ h0 h12 h45
    simp only [calculate_points]
    split_ifs <;> first | omega | linarith
  · norm_num [calculate_points]

/-- Witness for C6 at concrete times: 2 s earns 20 points, resolving at 30 s
earns no more than resolving at 7 s, and t = 5 earns 17. -/
theorem claim_C6_reward_tiers_witness :
    ((0:ℚ) ≤ 2 ∧ (2:ℚ) < 5 ∧ calculate_points 2 = 20) ∧
    ((0:ℚ) ≤ 7 ∧ (7:ℚ) ≤ 30 ∧ (30:ℚ) ≤ 45 ∧
      calculate_points 30 ≤ calculate_points 7) :=
  ⟨⟨by norm_num, by norm_num, claim_C6_reward_tiers.1 2 (by norm_num) (by norm_num)⟩,
   ⟨by norm_num, by norm_num, by norm_num,
    claim_C6_reward_tiers.2.2.2.2.2.1 7 30 (by norm_num) (by norm_num) (by norm_num)⟩⟩

/-- C7: starting from a fresh aggregate with all counters 0, after every
sequence of win/loss updates `maxStreak ≥ currentStreak` holds; moreover each
win increments `currentStreak` by exactly 1, each loss resets it to 0, and
`maxStreak` never decreases across any single update. -/
theorem claim_C7_streak_invariant :
    (∀ evs : List (Bool × ℚ),
      (evs.foldl (fun v e => record_result v e.1 e.2 e.2) (freshStats "player" 0)).streak ≤
        (evs.foldl (fun v e => record_result v e.1 e.2 e.2) (freshStats "player" 0)).max_streak) ∧
    (∀ (u : UserStats) (rt now : ℚ), (record_result u true rt now).streak = u.streak + 1) ∧
    (∀ (u : UserStats) (rt now : ℚ), (record_result u false rt now).streak = 0) ∧
    (∀ (u : UserStats) (c : Bool) (rt now : ℚ),
      u.max_streak ≤ (record_result u c rt now).max_streak) := by
  refine ⟨?_, ?_, ?_, ?_⟩
  · intro evs
    exact foldl_record_result_streak_le evs (freshStats "player" 0) (Nat.le_refl 0)
  · intro u rt now; simp [record_result]
  · intro u rt now; simp [record_result]
  · intro u c rt now; exact record_result_max_streak_mono u c rt now

/-- C8 (amended): once a round is resolved (the waiting flag is cleared),
later `monitor_comments` calls are fully inert — the state, including winner,
status, stored answers and user statistics, is returned unchanged, so
post-resolution submissions are neither classified nor stored and do not feed
the top-matches report. -/
theorem claim_C8_resolved_round_inert (sim : List Char → List Char → ℚ)
    (bot_name : String) (st : BotState) (cs : List Comment)
    (h : st.waiting_for_answer = false) :
    monitor_comments sim bot_name st cs = st := by
  simp [monitor_comments, h]

/-- Counterexample to C8 as stated: in a round resolved by alice's correct
"paris", a later submission by bob is *not* retained — the second monitoring
pass leaves the state unchanged and bob's answer record is absent from
`question_answers`, so its verdict was never computed or stored. -/
theorem claim_C8_counterexample :
    (monitor_comments simZero "bot"
        (monitor_comments simZero "bot" ⟨true, true, "Paris", [], [], [], none⟩
          [⟨"id1", some "alice", "paris", 3⟩])
        [⟨"id2", some "bob", "france", 4⟩] =
      monitor_comments simZero "bot" ⟨true, true, "Paris", [], [], [], none⟩
        [⟨"id1", some "alice", "paris", 3⟩]) ∧
    (⟨"bob", "france", 4⟩ : AnswerRecord) ∉
      (monitor_comments simZero "bot"
        (monitor_comments simZero "bot" ⟨true, true, "Paris", [], [], [], none⟩
          [⟨"id1", some "alice", "paris", 3⟩])
        [⟨"id2", some "bob", "france", 4⟩]).question_answers := by decide

/-- Witness for the amended C8 at a concrete resolved state. -/
theorem claim_C8_resolved_round_inert_witness :
    (⟨true, false, "Paris", [], [], [], none⟩ : BotState).waiting_for_answer = false ∧
    monitor_comments simZero "bot" ⟨true, false, "Paris", [], [], [], none⟩
        [⟨"id9", some "eve", "paris", 1⟩] =
      ⟨true, false, "Paris", [], [], [], none⟩ :=
  ⟨rfl, claim_C8_resolved_round_inert simZero "bot" _ _ rfl⟩

/-- C9: a candidate with non-empty raw text whose normalised form is empty,
against a reference with non-empty raw text, is always accepted: `exact` with
confidence 1.0 when the reference also normalises to the empty string, else
`contains` with confidence 0.95, because the empty normalised candidate is a
substring of every normalised reference. -/
theorem claim_C9_empty_normalization_matches (sim : List Char → List Char → ℚ)
    (cand ref : String) (thr : ℚ)
    (hc : cand ≠ "") (hr : ref ≠ "") (hnorm : normalize_text cand = "") :
    (normalize_text ref = "" → is_match sim cand ref thr = (true, 1, "exact")) ∧
    (normalize_text ref ≠ "" → is_match sim cand ref thr = (true, mkRat 95 100, "contains")) := by
  have hdata : normalizeL cand.data = [] := by
    have := congrArg String.data hnorm
    simpa [normalize_text] using this
  constructor
  · intro he
    have hrdata : normalizeL ref.data = [] := by
      have := congrArg String.data he
      simpa [normalize_text] using this
    simp [is_match, hc, hr, hdata, hrdata]
  · intro he
    have hrdata : normalizeL ref.data ≠ [] := by
      intro hcontra
      exact he (by simp [normalize_text, hcontra])
    simp [is_match, hc, hr, hdata, Ne.symm hrdata, strContains_nil]

/-- Witness for C9: the candidate `"?"` (normalises to `""`) against the
reference `"x"` (normalises to `"x"`) is classified `contains` at 0.95. -/
theorem claim_C9_empty_normalization_matches_witness :
    ("?" ≠ "") ∧ ("x" ≠ "") ∧ normalize_text "?" = "" ∧ normalize_text "x" ≠ "" ∧
    is_match simZero "?" "x" (mkRat 8 10) = (true, mkRat 95 100, "contains") :=
  ⟨by decide, by decide, by decide, by decide,
   (claim_C9_empty_normalization_matches simZero "?" "x" (mkRat 8 10)
     (by decide) (by decide) (by decide)).2 (by decide)⟩

/-- C10: for every response time t ≥ 0 the points function returns between 11
and 20 inclusive; in particular times at or beyond the 45-second deadline
still earn 11 points — there is no upper cutoff at the deadline. -/
theorem claim_C10_reward_bounds (t : ℚ) (h : 0 ≤ t) :
    11 ≤ calculate_points t ∧ calculate_points t ≤ 20 ∧
    (45 ≤ t → calculate_points t = 11) := by
  unfold calculate_points
  split_ifs <;> refine ⟨by norm_num, by norm_num, ?_⟩ <;> intro h45 <;>
    first | rfl | linarith

/-- Witness for C10 at t = 50, a time past the deadline. -/
theorem claim_C10_reward_bounds_witness :
    (0:ℚ) ≤ 50 ∧ (45:ℚ) ≤ 50 ∧ 11 ≤ calculate_points 50 ∧ calculate_points 50 = 11 :=
  ⟨by norm_num, by norm_num, (claim_C10_reward_bounds 50 (by norm_num)).1,
   (claim_C10_reward_bounds 50 (by norm_num)).2.2 (by norm_num)⟩

/-- Counterexample to C5 as stated (idempotence for all x): the abbreviation
table maps "dc" to "washington dc", whose token "dc" is itself a table key,
so a second normalisation pass expands it again. -/
theorem claim_C5_counterexample :
    normalize_text "dc" = "washington dc" ∧
    normalize_text (normalize_text "dc") = "washington washington dc" ∧
    normalize_text (normalize_text "dc") ≠ normalize_text "dc" := by decide

/-- C5 (amended): normalisation is idempotent on every input string x whose
normalised form contains no token that the abbreviation/Roman-numeral table
rewrites (after punctuation stripping).  The only way this hypothesis fails
is a token reintroduced by an expansion — concretely the key "dc", whose
expansion "washington dc" contains "dc" again, as the counterexample shows. -/
theorem claim_C5_normalize_idempotent (x : String)
    (h : ∀ w ∈ pySplit (normalize_text x).data, expandWord w = w) :
    normalize_text (normalize_text x) = normalize_text x := by
  suffices hsuff : normalizeL (normalizeL x.data) = normalizeL x.data by
    show (⟨normalizeL (normalize_text x).data⟩ : String) = normalize_text x
    have hd : (normalize_text x).data = normalizeL x.data := rfl
    rw [hd, hsuff]
    rfl
  by_cases hnil : normalizeL x.data = []
  · rw [hnil]; rfl
  · exact normalizeL_id_of_goodChars (normalizeL x.data) hnil
      (normalizeL_goodChars x.data) (canon_normalizeL x.data) h

/-- Witness for the amended C5 at the concrete input "paris": its normalised
form has no expandable token, and normalisation is idempotent there. -/
theorem claim_C5_normalize_idempotent_witness :
    (∀ w ∈ pySplit (normalize_text "paris").data, expandWord w = w) ∧
    normalize_text (normalize_text "paris") = normalize_text "paris" :=
  ⟨by decide, claim_C5_normalize_idempotent "paris" (by decide)⟩

end Quizzit
